import Mathlib

/-!
Verification of the document-model conversion and offset-arithmetic editing
engine of the MCP-Google-Doc server.  The TypeScript source manipulates
untyped Google-Docs API objects; here the content tree is a closed inductive
type and every function under scrutiny is translated into an executable Lean
definition.  Strings are modelled as `List Char` (one JS code unit per
element, treated as an opaque monotonic measure).
-/

namespace GDoc

/-- A paragraph element: either a text run carrying its content string, or any
other kind of paragraph element (page break, inline object, ...), which the
source ignores because it probes only `paragraphElement.textRun`. -/
inductive ParaElement where
  | textRun (content : List Char)
  | other
deriving DecidableEq

/-- The named paragraph styles that `convertDocToMarkdown` switches on.  The
source compares the string `namedStyleType` against the literals
`HEADING_1` .. `HEADING_6`; every other string falls into the default branch,
modelled by `normalText`/`other`. -/
inductive NamedStyle where
  | heading1 | heading2 | heading3 | heading4 | heading5 | heading6
  | normalText | other
deriving DecidableEq

/-- Paragraph style object: optional `namedStyleType` and optional
`headingId` (a non-empty `headingId` marks a heading in
`findHeadingsWithPositions`). -/
structure ParagraphStyle where
  namedStyleType : Option NamedStyle := none
  headingId : Option (List Char) := none
deriving DecidableEq

/-- One structural element of the content tree.  A table is a list of rows,
each row a list of cells, each cell a list of structural elements (the source
reads `element.table.tableRows[..].tableCells[..].content`).
`tableOfContents` and `other` stand for the element kinds the extractor walks
past without a matching branch. -/
inductive StructuralElement where
  | paragraph (elements : List ParaElement) (paragraphStyle : Option ParagraphStyle)
  | table (tableRows : List (List (List StructuralElement)))
  | tableOfContents
  | other

/-- Concatenated text of a paragraph's runs: the source appends
`paragraphElement.textRun.content` for every run (a run with empty content
adds nothing either way). -/
def runsText : List ParaElement → List Char
  | [] => []
  | .textRun c :: rest => c ++ runsText rest
  | .other :: rest => runsText rest

mutual

/-- Translation of `extractTextFromContent` (src/src/server.ts and
src/unnamed/part_002): concatenates every text-run content, recursing into
table cells; elements that are neither paragraphs nor tables contribute
nothing. -/
def extractTextFromContent : List StructuralElement → List Char
  | [] => []
  | e :: rest => extractTextFromElement e ++ extractTextFromContent rest

/-- Contribution of a single structural element to `extractTextFromContent`. -/
def extractTextFromElement : StructuralElement → List Char
  | .paragraph pes _ => runsText pes
  | .table rows => extractTextFromRows rows
  | .tableOfContents => []
  | .other => []

/-- Texts of all rows of a table, in order. -/
def extractTextFromRows : List (List (List StructuralElement)) → List Char
  | [] => []
  | row :: rest => extractTextFromRow row ++ extractTextFromRows rest

/-- Texts of all cells of a row, in order; each cell recurses into
`extractTextFromContent` exactly once. -/
def extractTextFromRow : List (List StructuralElement) → List Char
  | [] => []
  | cell :: rest => extractTextFromContent cell ++ extractTextFromRow rest

end

mutual

/-- Spec-side quantity: the sum of the lengths of all `TextRun.text` in the
tree, recursing into table cells, each cell counted exactly once. -/
def sumRunLengths : List StructuralElement → Nat
  | [] => 0
  | e :: rest => sumRunLengthsElem e + sumRunLengths rest

/-- Run-length sum contributed by one element. -/
def sumRunLengthsElem : StructuralElement → Nat
  | .paragraph pes _ => (runsText pes).length
  | .table rows => sumRunLengthsRows rows
  | .tableOfContents => 0
  | .other => 0

/-- Run-length sum of the rows of a table. -/
def sumRunLengthsRows : List (List (List StructuralElement)) → Nat
  | [] => 0
  | row :: rest => sumRunLengthsRow row + sumRunLengthsRows rest

/-- Run-length sum of the cells of a row. -/
def sumRunLengthsRow : List (List StructuralElement) → Nat
  | [] => 0
  | cell :: rest => sumRunLengths cell + sumRunLengthsRow rest

end

mutual

/-- Spec-side quantity for the claim under test: the sum of all run lengths
plus one unit for each non-text element (table of contents, page break, ...)
anywhere in the tree. -/
def claimedExtractLength : List StructuralElement → Nat
  | [] => 0
  | e :: rest => claimedExtractLengthElem e + claimedExtractLength rest

/-- Claimed length contribution of one element: run text lengths for
paragraphs, recursion for tables, one fixed unit for anything else. -/
def claimedExtractLengthElem : StructuralElement → Nat
  | .paragraph pes _ => (runsText pes).length
  | .table rows => claimedExtractLengthRows rows
  | .tableOfContents => 1
  | .other => 1

/-- Claimed length of the rows of a table. -/
def claimedExtractLengthRows : List (List (List StructuralElement)) → Nat
  | [] => 0
  | row :: rest => claimedExtractLengthRow row + claimedExtractLengthRows rest

/-- Claimed length of the cells of a row. -/
def claimedExtractLengthRow : List (List StructuralElement) → Nat
  | [] => 0
  | cell :: rest => claimedExtractLength cell + claimedExtractLengthRow rest

end

mutual

/-- The extracted text length is exactly the sum of the run lengths. -/
theorem extractTextFromContent_length (c : List StructuralElement) :
    (extractTextFromContent c).length = sumRunLengths c :=
  match c with
  | [] => by simp [extractTextFromContent, sumRunLengths]
  | e :: rest => by
      simp [extractTextFromContent, sumRunLengths,
        extractTextFromElement_length e, extractTextFromContent_length rest]

/-- Element-wise version of `extractTextFromContent_length`. -/
theorem extractTextFromElement_length (e : StructuralElement) :
    (extractTextFromElement e).length = sumRunLengthsElem e :=
  match e with
  | .paragraph pes ps => by simp [extractTextFromElement, sumRunLengthsElem]
  | .table rows => by
      simp [extractTextFromElement, sumRunLengthsElem,
        extractTextFromRows_length rows]
  | .tableOfContents => by simp [extractTextFromElement, sumRunLengthsElem]
  | .other => by simp [extractTextFromElement, sumRunLengthsElem]

/-- Row-list version of `extractTextFromContent_length`. -/
theorem extractTextFromRows_length (rows : List (List (List StructuralElement))) :
    (extractTextFromRows rows).length = sumRunLengthsRows rows :=
  match rows with
  | [] => by simp [extractTextFromRows, sumRunLengthsRows]
  | row :: rest => by
      simp [extractTextFromRows, sumRunLengthsRows,
        extractTextFromRow_length row, extractTextFromRows_length rest]

/-- Row version of `extractTextFromContent_length`. -/
theorem extractTextFromRow_length (row : List (List StructuralElement)) :
    (extractTextFromRow row).length = sumRunLengthsRow row :=
  match row with
  | [] => by simp [extractTextFromRow, sumRunLengthsRow]
  | cell :: rest => by
      simp [extractTextFromRow, sumRunLengthsRow,
        extractTextFromContent_length cell, extractTextFromRow_length rest]

end

/-- Claim C2 as stated is refuted on a tree consisting of a single
table-of-contents element: the extractor skips it entirely (length 0), while
the claimed length counts one unit for it. -/
theorem extract_length_claim_counterexample :
    (extractTextFromContent [StructuralElement.tableOfContents]).length ≠
      claimedExtractLength [StructuralElement.tableOfContents] := by
  simp [extractTextFromContent, extractTextFromElement,
    claimedExtractLength, claimedExtractLengthElem]

/-- Claim C2, amended: for every content tree, the length computed by the
text extractor equals the sum of the lengths of all TextRun.text in the tree
(recursing into table cells, each cell counted exactly once); non-text
elements (table of contents, page break, etc.) contribute nothing. -/
theorem extract_length_eq_sum_run_lengths (c : List StructuralElement) :
    (extractTextFromContent c).length = sumRunLengths c :=
  extractTextFromContent_length c

/-! ## Inline markdown formatting (`parseInlineFormatting`, src/unnamed/part_001) -/

/-- The inline style object attached to a match, mirroring the source's
`{bold: true}`, `{italic: true}`, `{strikethrough: true}`, `{code: true}`
literals (absent fields default to `false`). -/
structure Styles where
  bold : Bool := false
  italic : Bool := false
  strikethrough : Bool := false
  code : Bool := false
deriving DecidableEq

/-- A regex match record `{start, end, text, style}` collected by
`parseInlineFormatting` (`end` is a reserved word in Lean, hence `endPos`). -/
structure TextMatch where
  start : Nat
  endPos : Nat
  text : List Char
  style : Styles
deriving DecidableEq

/-- An output segment `{text, styles?}` of `parseInlineFormatting`; plain
segments carry no `styles` field. -/
structure Segment where
  text : List Char
  styles : Option Styles := none
deriving DecidableEq

/-- The backtick character (code point 96), written numerically. -/
def backtickChar : Char := Char.ofNat 96

/-- Match, anchored at offset `i`, of a doubled-delimiter pattern
`cc([^c]+?)cc` (the shapes of the bold and strikethrough regexes): two
delimiter characters, a non-empty lazy run of non-delimiter characters —
which therefore ends at the first following delimiter — and two closing
delimiter characters.  Returns the exclusive end offset and the captured
group. -/
def delim2At (c : Char) (s : List Char) (i : Nat) : Option (Nat × List Char) :=
  match s.drop i with
  | c1 :: c2 :: rest =>
    if c1 = c ∧ c2 = c then
      let run := rest.takeWhile (· ≠ c)
      match rest.dropWhile (· ≠ c) with
      | d1 :: d2 :: _ =>
        if d1 = c ∧ d2 = c ∧ 1 ≤ run.length then some (i + run.length + 4, run) else none
      | _ => none
    else none
  | _ => none

/-- Match, anchored at offset `i`, of a single-delimiter pattern
`c([^c]+?)c` (the shapes of the italic core and the code regex). -/
def delim1At (c : Char) (s : List Char) (i : Nat) : Option (Nat × List Char) :=
  match s.drop i with
  | c1 :: rest =>
    if c1 = c then
      let run := rest.takeWhile (· ≠ c)
      match rest.dropWhile (· ≠ c) with
      | d1 :: _ =>
        if d1 = c ∧ 1 ≤ run.length then some (i + run.length + 2, run) else none
      | _ => none
    else none
  | _ => none

/-- The bold pattern: doubled asterisks around a non-empty asterisk-free
run (the character class of the capture excludes asterisks, so bold can
never span interior `*` characters). -/
def boldAt (s : List Char) (i : Nat) : Option (Nat × List Char) :=
  delim2At '*' s i

/-- The italic pattern: single asterisks with a negative lookbehind (the
character before the match must not be `*`) and a negative lookahead (the
character after the closing delimiter must not be `*`). -/
def italicAt (s : List Char) (i : Nat) : Option (Nat × List Char) :=
  if i = 0 ∨ s.get? (i - 1) ≠ some '*' then
    match delim1At '*' s i with
    | some (e, t) => if s.get? e ≠ some '*' then some (e, t) else none
    | none => none
  else none

/-- The strikethrough pattern: doubled tildes around a tilde-free run. -/
def strikeAt (s : List Char) (i : Nat) : Option (Nat × List Char) :=
  delim2At '~' s i

/-- The code pattern: single backticks around a backtick-free run. -/
def codeAt (s : List Char) (i : Nat) : Option (Nat × List Char) :=
  delim1At backtickChar s i

/-- The `while ((match = regex.exec(text)) !== null)` loop: starting at
offset `i`, find the leftmost match at or after `i`, record it, and resume
at its end.  `fuel` only bounds the iteration count; `s.length + 1` steps
always suffice because every step advances the position. -/
def execGo (matchAt : List Char → Nat → Option (Nat × List Char)) (style : Styles)
    (s : List Char) : Nat → Nat → List TextMatch
  | 0, _ => []
  | fuel + 1, i =>
    if i < s.length then
      match matchAt s i with
      | some (e, t) => ⟨i, e, t, style⟩ :: execGo matchAt style s fuel e
      | none => execGo matchAt style s fuel (i + 1)
    else []

/-- All matches of one pattern over the whole string, in match order. -/
def execLoop (matchAt : List Char → Nat → Option (Nat × List Char)) (style : Styles)
    (s : List Char) : List TextMatch :=
  execGo matchAt style s (s.length + 1) 0

/-- All matches of all four patterns, collected in the source's pattern
order: bold, italic, strikethrough, code. -/
def allMatches (s : List Char) : List TextMatch :=
  execLoop boldAt { bold := true } s ++ execLoop italicAt { italic := true } s ++
    execLoop strikeAt { strikethrough := true } s ++ execLoop codeAt { code := true } s

/-- `matches.sort((a, b) => a.start - b.start)`: a stable sort by start
offset (insertion sort is stable, like the JS engine's `Array.sort`; in fact
no two collected matches ever share a start offset). -/
def sortMatches (ms : List TextMatch) : List TextMatch :=
  ms.insertionSort (fun a b => a.start ≤ b.start)

/-- The overlap-handling scan: a candidate match is accepted only if its
start is at least the end of the last accepted match (`lastEnd`, initially
0); accepted matches update `lastEnd` to their end. -/
def filterOverlaps : List TextMatch → Nat → List TextMatch
  | [], _ => []
  | m :: ms, lastEnd =>
    if lastEnd ≤ m.start then m :: filterOverlaps ms m.endPos
    else filterOverlaps ms lastEnd

/-- The `validMatches` of the source: all matches, sorted by start offset,
greedily reduced to a non-overlapping set. -/
def acceptedMatches (s : List Char) : List TextMatch :=
  filterOverlaps (sortMatches (allMatches s)) 0

/-- JS `text.substring(a, b)` for `a ≤ b`: the characters in `[a, min b len)`. -/
def extractSlice (s : List Char) (a b : Nat) : List Char :=
  (s.take b).drop a

/-- The segment-building loop of `parseInlineFormatting`: unstyled gaps
between accepted matches, the captured text of each match with its style,
then the unstyled remainder of the string. -/
def buildSegments (s : List Char) : List TextMatch → Nat → List Segment
  | [], pos =>
    if pos < s.length then
      if (s.drop pos).isEmpty then [] else [{ text := s.drop pos }]
    else []
  | m :: ms, pos =>
    (if pos < m.start then
      if (extractSlice s pos m.start).isEmpty then []
      else [({ text := extractSlice s pos m.start } : Segment)]
    else []) ++ { text := m.text, styles := some m.style } :: buildSegments s ms m.endPos

/-- Translation of `parseInlineFormatting` (src/unnamed/part_001): collect
all matches of the four inline patterns, sort by start, drop overlaps
greedily, and cut the string into styled and unstyled segments; if no
segment was produced, the whole text is one unstyled segment. -/
def parseInlineFormatting (s : List Char) : List Segment :=
  let segments := buildSegments s (acceptedMatches s) 0
  if segments.isEmpty then [{ text := s }] else segments

/-! ## Structural lemmas about the inline parser -/

theorem extractSlice_of_drop_eq {s u v : List Char} {i : Nat}
    (h : s.drop i = u ++ v) (hu : u ≠ []) :
    extractSlice s i (i + u.length) = u ∧ i + u.length ≤ s.length := by
  have hi : i < s.length := by
    apply List.length_lt_of_drop_ne_nil
    rw [h]
    exact fun hc => hu (List.append_eq_nil.mp hc).1
  have h2 : s.length - i = u.length + v.length := by
    have h3 := List.length_drop i s
    rw [h] at h3
    simpa using h3.symm
  refine ⟨?_, by omega⟩
  have h3 : extractSlice s i (i + u.length) = (s.drop i).take u.length := by
    rw [extractSlice, List.take_drop]
  rw [h3, h, List.take_left]

theorem delim2At_shape {c : Char} {s : List Char} {i e : Nat} {t : List Char}
    (h : delim2At c s i = some (e, t)) :
    e = i + t.length + 4 ∧ 1 ≤ t.length ∧ e ≤ s.length ∧
      extractSlice s i e = c :: c :: (t ++ [c, c]) := by
  unfold delim2At at h
  split at h
  case h_2 => exact absurd h (by simp)
  case h_1 c1 c2 rest hd =>
    split at h
    case isFalse => exact absurd h (by simp)
    case isTrue hc =>
      split at h
      case h_2 => exact absurd h (by simp)
      case h_1 d1 d2 tl hdw =>
        dsimp only [] at h
        split at h
        case isFalse => exact absurd h (by simp)
        case isTrue hg =>
          simp only [Option.some.injEq, Prod.mk.injEq] at h
          obtain ⟨he, ht⟩ := h
          obtain ⟨hc1, hc2⟩ := hc
          obtain ⟨hd1, hd2, hrun⟩ := hg
          rw [hc1, hc2] at hd
          rw [hd1, hd2] at hdw
          rw [ht] at he hrun
          have hrest : rest = t ++ (c :: c :: tl) := by
            conv_lhs => rw [← List.takeWhile_append_dropWhile (fun x => decide (x ≠ c)) rest]
            rw [hdw, ht]
          have hsplit : s.drop i = (c :: c :: (t ++ [c, c])) ++ tl := by
            rw [hd, hrest]
            simp
          obtain ⟨hslice, hbound⟩ := extractSlice_of_drop_eq hsplit (by simp)
          have hlen : (c :: c :: (t ++ [c, c])).length = t.length + 4 := by simp
          rw [hlen] at hslice hbound
          refine ⟨by omega, hrun, by omega, ?_⟩
          have : e = i + (t.length + 4) := by omega
          rw [this]
          exact hslice

theorem delim1At_shape {c : Char} {s : List Char} {i e : Nat} {t : List Char}
    (h : delim1At c s i = some (e, t)) :
    e = i + t.length + 2 ∧ 1 ≤ t.length ∧ e ≤ s.length ∧
      extractSlice s i e = c :: (t ++ [c]) := by
  unfold delim1At at h
  split at h
  case h_2 => exact absurd h (by simp)
  case h_1 c1 rest hd =>
    split at h
    case isFalse => exact absurd h (by simp)
    case isTrue hc =>
      split at h
      case h_2 => exact absurd h (by simp)
      case h_1 d1 tl hdw =>
        dsimp only [] at h
        split at h
        case isFalse => exact absurd h (by simp)
        case isTrue hg =>
          simp only [Option.some.injEq, Prod.mk.injEq] at h
          obtain ⟨he, ht⟩ := h
          obtain ⟨hd1, hrun⟩ := hg
          rw [hc] at hd
          rw [hd1] at hdw
          rw [ht] at he hrun
          have hrest : rest = t ++ (c :: tl) := by
            conv_lhs => rw [← List.takeWhile_append_dropWhile (fun x => decide (x ≠ c)) rest]
            rw [hdw, ht]
          have hsplit : s.drop i = (c :: (t ++ [c])) ++ tl := by
            rw [hd, hrest]
            simp
          obtain ⟨hslice, hbound⟩ := extractSlice_of_drop_eq hsplit (by simp)
          have hlen : (c :: (t ++ [c])).length = t.length + 2 := by simp
          rw [hlen] at hslice hbound
          refine ⟨by omega, hrun, by omega, ?_⟩
          have : e = i + (t.length + 2) := by omega
          rw [this]
          exact hslice

/-- Every match produced by the exec loop was produced by its matcher at its
own start offset, and carries the pattern's style. -/
theorem execGo_mem {matchAt : List Char → Nat → Option (Nat × List Char)} {style : Styles}
    {s : List Char} :
    ∀ {fuel i : Nat} {m : TextMatch}, m ∈ execGo matchAt style s fuel i →
      matchAt s m.start = some (m.endPos, m.text) ∧ m.style = style := by
  intro fuel
  induction fuel with
  | zero => intro i m hm; exact absurd hm (by simp [execGo])
  | succ fuel ih =>
    intro i m hm
    rw [execGo] at hm
    split at hm
    case isFalse => exact absurd hm (by simp)
    case isTrue hi =>
      split at hm
      case h_1 e t hmat =>
        rcases List.mem_cons.mp hm with rfl | hm2
        · exact ⟨hmat, rfl⟩
        · exact ih hm2
      case h_2 => exact ih hm

/-- The shape every collected match has: its span sits inside the string and
consists of `d` copies of the delimiter character, the captured text, and
`d` closing copies, where `d` and the delimiter are those of one of the four
patterns. -/
def MatchShape (s : List Char) (m : TextMatch) : Prop :=
  ∃ d c, ((d = 2 ∧ (c = '*' ∨ c = '~')) ∨ (d = 1 ∧ (c = '*' ∨ c = backtickChar))) ∧
    m.endPos = m.start + m.text.length + 2 * d ∧ m.endPos ≤ s.length ∧
    1 ≤ m.text.length ∧
    extractSlice s m.start m.endPos = List.replicate d c ++ m.text ++ List.replicate d c

theorem allMatches_shape {s : List Char} {m : TextMatch} (hm : m ∈ allMatches s) :
    MatchShape s m := by
  rw [allMatches] at hm
  simp only [List.mem_append] at hm
  rcases hm with ((hb | hi) | hst) | hco
  · obtain ⟨hmat, -⟩ := execGo_mem hb
    obtain ⟨he, ht, hb2, hs2⟩ := delim2At_shape hmat
    exact ⟨2, '*', Or.inl ⟨rfl, Or.inl rfl⟩, by omega, hb2, ht, by simpa using hs2⟩
  · obtain ⟨hmat, -⟩ := execGo_mem hi
    unfold italicAt at hmat
    split at hmat
    case isFalse => exact absurd hmat (by simp)
    case isTrue =>
      split at hmat
      case h_2 => exact absurd hmat (by simp)
      case h_1 e t hdel =>
        split at hmat
        case isFalse => exact absurd hmat (by simp)
        case isTrue =>
          have hET := Option.some.inj hmat
          have he2 : e = m.endPos := congrArg Prod.fst hET
          have ht2 : t = m.text := congrArg Prod.snd hET
          rw [he2, ht2] at hdel
          obtain ⟨he, ht, hb2, hs2⟩ := delim1At_shape hdel
          exact ⟨1, '*', Or.inr ⟨rfl, Or.inl rfl⟩, by omega, hb2, ht, by simpa using hs2⟩
  · obtain ⟨hmat, -⟩ := execGo_mem hst
    obtain ⟨he, ht, hb2, hs2⟩ := delim2At_shape hmat
    exact ⟨2, '~', Or.inl ⟨rfl, Or.inr rfl⟩, by omega, hb2, ht, by simpa using hs2⟩
  · obtain ⟨hmat, -⟩ := execGo_mem hco
    obtain ⟨he, ht, hb2, hs2⟩ := delim1At_shape hmat
    exact ⟨1, backtickChar, Or.inr ⟨rfl, Or.inr rfl⟩, by omega, hb2, ht, by simpa using hs2⟩

/-- Well-formedness of a match list relative to a cursor: each match starts
at or after the cursor, spans a non-empty in-bounds range, and hands the
cursor to its end. -/
def GoodFrom (s : List Char) : Nat → List TextMatch → Prop
  | _, [] => True
  | pos, m :: ms =>
    pos ≤ m.start ∧ m.start < m.endPos ∧ m.endPos ≤ s.length ∧ GoodFrom s m.endPos ms

theorem MatchShape.bounds {s : List Char} {m : TextMatch} (h : MatchShape s m) :
    m.start < m.endPos ∧ m.endPos ≤ s.length := by
  obtain ⟨d, c, hdc, he, hb, ht, -⟩ := h
  refine ⟨?_, hb⟩
  rcases hdc with ⟨hd, -⟩ | ⟨hd, -⟩ <;> omega

theorem filterOverlaps_good {s : List Char} :
    ∀ {ms : List TextMatch}, (∀ m ∈ ms, m.start < m.endPos ∧ m.endPos ≤ s.length) →
      ∀ lastEnd, GoodFrom s lastEnd (filterOverlaps ms lastEnd) := by
  intro ms
  induction ms with
  | nil => intro _ lastEnd; rw [filterOverlaps]; trivial
  | cons m ms ih =>
    intro h lastEnd
    rw [filterOverlaps]
    split
    case isTrue hle =>
      have hm := h m (by simp)
      exact ⟨hle, hm.1, hm.2, ih (fun x hx => h x (by simp [hx])) m.endPos⟩
    case isFalse => exact ih (fun x hx => h x (by simp [hx])) lastEnd

theorem filterOverlaps_sublist :
    ∀ (ms : List TextMatch) (lastEnd : Nat), List.Sublist (filterOverlaps ms lastEnd) ms := by
  intro ms
  induction ms with
  | nil => intro l; simp [filterOverlaps]
  | cons m ms ih =>
    intro l
    rw [filterOverlaps]
    split
    · exact List.Sublist.cons₂ m (ih m.endPos)
    · exact List.Sublist.cons m (ih l)

theorem GoodFrom.chain' {s : List Char} :
    ∀ {ms : List TextMatch} {pos : Nat}, GoodFrom s pos ms →
      List.Chain' (fun a b => a.endPos ≤ b.start) ms := by
  intro ms
  induction ms with
  | nil => intro pos _; simp
  | cons m ms ih =>
    intro pos h
    obtain ⟨h1, h2, h3, h4⟩ := h
    cases ms with
    | nil => simp
    | cons m2 ms2 =>
      exact List.chain'_cons.mpr ⟨h4.1, ih h4⟩

theorem sortMatches_mem {m : TextMatch} {ms : List TextMatch}
    (h : m ∈ sortMatches ms) : m ∈ ms := by
  rw [sortMatches] at h
  exact ((List.perm_insertionSort _ ms).mem_iff).mp h

theorem acceptedMatches_shape {s : List Char} {m : TextMatch}
    (hm : m ∈ acceptedMatches s) : MatchShape s m := by
  have h1 : m ∈ sortMatches (allMatches s) :=
    (filterOverlaps_sublist (sortMatches (allMatches s)) 0).subset hm
  exact allMatches_shape (sortMatches_mem h1)

theorem acceptedMatches_good (s : List Char) : GoodFrom s 0 (acceptedMatches s) := by
  apply filterOverlaps_good
  intro m hm
  exact MatchShape.bounds (allMatches_shape (sortMatches_mem hm))

/-- Replace each accepted span by its captured text, keeping the gaps. -/
def splice (s : List Char) : Nat → List TextMatch → List Char
  | pos, [] => s.drop pos
  | pos, m :: ms => extractSlice s pos m.start ++ m.text ++ splice s m.endPos ms

/-- Keep each accepted span verbatim together with the gaps: this
reconstructs the input, witnessing that the spans partition it. -/
def spliceOriginal (s : List Char) : Nat → List TextMatch → List Char
  | pos, [] => s.drop pos
  | pos, m :: ms =>
    extractSlice s pos m.start ++ extractSlice s m.start m.endPos ++
      spliceOriginal s m.endPos ms

theorem drop_eq_slice_append {s : List Char} {a b : Nat} (hab : a ≤ b) :
    s.drop a = extractSlice s a b ++ s.drop b := by
  rw [extractSlice]
  by_cases hb : b ≤ s.length
  · conv_lhs => rw [← List.take_append_drop b s]
    rw [List.drop_append_eq_append_drop]
    have h1 : (s.take b).length = b := by rw [List.length_take]; omega
    rw [h1]
    have h2 : a - b = 0 := by omega
    rw [h2, List.drop_zero]
  · push_neg at hb
    rw [@List.take_of_length_le Char b s (by omega), @List.drop_of_length_le Char b s (by omega)]
    simp

theorem spliceOriginal_eq_drop {s : List Char} :
    ∀ {ms : List TextMatch} {pos : Nat}, GoodFrom s pos ms →
      spliceOriginal s pos ms = s.drop pos := by
  intro ms
  induction ms with
  | nil => intro pos _; rw [spliceOriginal]
  | cons m ms ih =>
    intro pos h
    obtain ⟨h1, h2, h3, h4⟩ := h
    rw [spliceOriginal, ih h4, List.append_assoc,
      ← drop_eq_slice_append (Nat.le_of_lt h2), ← drop_eq_slice_append h1]

/-- Concatenation of the texts of a segment list. -/
def segmentsText (segs : List Segment) : List Char :=
  (segs.map Segment.text).flatten

theorem segmentsText_append (xs ys : List Segment) :
    segmentsText (xs ++ ys) = segmentsText xs ++ segmentsText ys := by
  rw [segmentsText, segmentsText, segmentsText, List.map_append, List.flatten_append]

theorem extractSlice_self (s : List Char) (a : Nat) : extractSlice s a a = [] := by
  rw [extractSlice]
  apply List.drop_eq_nil_of_le
  rw [List.length_take]
  omega

theorem buildSegments_text {s : List Char} :
    ∀ {ms : List TextMatch} {pos : Nat}, GoodFrom s pos ms →
      segmentsText (buildSegments s ms pos) = splice s pos ms := by
  intro ms
  induction ms with
  | nil =>
    intro pos _
    rw [buildSegments, splice]
    split
    case isTrue hlt =>
      split
      case isTrue hemp =>
        exfalso
        have h2 := List.isEmpty_iff.mp hemp
        have h3 := List.length_drop pos s
        rw [h2] at h3
        simp at h3
        omega
      case isFalse => simp [segmentsText]
    case isFalse hge =>
      push_neg at hge
      rw [List.drop_eq_nil_of_le hge]
      simp [segmentsText]
  | cons m ms ih =>
    intro pos h
    obtain ⟨h1, h2, h3, h4⟩ := h
    rw [buildSegments, splice, segmentsText_append]
    have htail : segmentsText ({ text := m.text, styles := some m.style } ::
        buildSegments s ms m.endPos) = m.text ++ splice s m.endPos ms := by
      have : ({ text := m.text, styles := some m.style } ::
          buildSegments s ms m.endPos) = [{ text := m.text, styles := some m.style }] ++
          buildSegments s ms m.endPos := by simp
      rw [this, segmentsText_append, ih h4]
      simp [segmentsText]
    rw [htail]
    split
    case isTrue hlt =>
      have hne : extractSlice s pos m.start ≠ [] := by
        intro hc
        have h5 : (extractSlice s pos m.start).length = 0 := by rw [hc]; rfl
        rw [extractSlice] at h5
        rw [List.length_drop, List.length_take] at h5
        omega
      rw [if_neg (by simpa [List.isEmpty_iff] using hne)]
      simp [segmentsText]
    case isFalse hge =>
      have hpe : pos = m.start := by omega
      rw [hpe, extractSlice_self]
      simp [segmentsText]

/-- Claim C10: the segments returned by parseInlineFormatting partition the
input in order without loss - their concatenation equals the input with
exactly the markup delimiter characters of the accepted matches removed
(each accepted match's span is the delimiter run, the captured text, and the
closing delimiter run, and the spans together with the gaps reconstruct the
input); the empty string yields a single empty unstyled segment. -/
theorem parseInlineFormatting_partition (s : List Char) :
    segmentsText (parseInlineFormatting s) = splice s 0 (acceptedMatches s) ∧
    spliceOriginal s 0 (acceptedMatches s) = s ∧
    (∀ m ∈ acceptedMatches s, MatchShape s m) ∧
    parseInlineFormatting [] = [{ text := [] }] := by
  refine ⟨?_, ?_, fun m hm => acceptedMatches_shape hm, by decide⟩
  · by_cases hemp : (buildSegments s (acceptedMatches s) 0).isEmpty
    · have hsegs : buildSegments s (acceptedMatches s) 0 = [] := List.isEmpty_iff.mp hemp
      have hacc : acceptedMatches s = [] := by
        cases hma : acceptedMatches s with
        | nil => rfl
        | cons m ms =>
          rw [hma, buildSegments] at hsegs
          exact absurd hsegs (by simp)
      have hs : s = [] := by
        rw [hacc, buildSegments] at hsegs
        by_cases hlen : 0 < s.length
        · rw [if_pos hlen] at hsegs
          split at hsegs
          next hdemp =>
            have h7 : s.drop 0 = [] := List.isEmpty_iff.mp hdemp
            rw [List.drop_zero] at h7
            exact h7
          next => exact absurd hsegs (by simp)
        · cases s with
          | nil => rfl
          | cons a l => exact absurd (by simp : 0 < (a :: l).length) hlen
      subst hs
      decide
    · have hemp2 : (buildSegments s (acceptedMatches s) 0).isEmpty = false := by
        simpa using hemp
      have heq : parseInlineFormatting s = buildSegments s (acceptedMatches s) 0 := by
        simp [parseInlineFormatting, hemp2]
      rw [heq]
      exact buildSegments_text (acceptedMatches_good s)
  · have h1 := spliceOriginal_eq_drop (acceptedMatches_good s)
    simpa using h1

/-- Witness for `parseInlineFormatting_partition`: its per-match span
property discharged at the bold match of "a **b** c". -/
theorem parseInlineFormatting_partition_witness :
    (⟨2, 7, "b".data, { bold := true }⟩ : TextMatch) ∈
      acceptedMatches "a **b** c".data ∧
    MatchShape "a **b** c".data ⟨2, 7, "b".data, { bold := true }⟩ :=
  ⟨by decide,
   (parseInlineFormatting_partition "a **b** c".data).2.2.1 _ (by decide)⟩

/-- Claim C3, amended: the parser collects all matches of the four patterns,
sorts them by start offset, and accepts a candidate only if its start is at
or after the end of the last accepted match; but on "**a*b*c**" the bold
pattern (whose capture excludes asterisks) has no match at all, so the
result is the italic segment "b" between unstyled "**a" and "c**", not a
single whole-string bold match. -/
theorem parseInlineFormatting_greedy_overlap (s : List Char) :
    List.Chain' (fun a b => a.endPos ≤ b.start) (acceptedMatches s) ∧
    List.Sublist (acceptedMatches s) (sortMatches (allMatches s)) ∧
    (sortMatches (allMatches s)).Perm (allMatches s) ∧
    parseInlineFormatting "**a*b*c**".data =
      [{ text := "**a".data }, { text := "b".data, styles := some { italic := true } },
       { text := "c**".data }] := by
  refine ⟨GoodFrom.chain' (acceptedMatches_good s), filterOverlaps_sublist _ 0, ?_, by decide⟩
  rw [sortMatches]
  exact List.perm_insertionSort _ _

/-- Claim C3 as stated is refuted: parseInlineFormatting "**a*b*c**" is not
the single bold segment spanning the whole string; it contains an italic
segment (and no bold segment). -/
theorem parseInlineFormatting_nested_counterexample :
    parseInlineFormatting "**a*b*c**".data ≠
      [{ text := "a*b*c".data, styles := some { bold := true } }] ∧
    ∃ seg ∈ parseInlineFormatting "**a*b*c**".data,
      seg.styles = some { italic := true } := by
  decide

/-- Claim C4: parseInlineFormatting "a **b** c" returns exactly three
segments in order: unstyled "a ", bold "b", unstyled " c". -/
theorem parseInlineFormatting_simple_bold : parseInlineFormatting "a **b** c".data =
    [{ text := "a ".data }, { text := "b".data, styles := some { bold := true } },
     { text := " c".data }] := by
  decide

/-! ## Markdown block decoder (`parseMarkdownContent`, src/unnamed/part_002) -/

/-- The character class of the JS regex `\s` (also the set trimmed by JS
`String.prototype.trim`): ASCII whitespace, NBSP, the Unicode space
separators, the line separators, and the BOM. -/
def isJsWs (c : Char) : Bool :=
  decide ((9 ≤ c.toNat ∧ c.toNat ≤ 13) ∨ c.toNat = 32 ∨ c.toNat = 160 ∨
    c.toNat = 5760 ∨ (8192 ≤ c.toNat ∧ c.toNat ≤ 8202) ∨ c.toNat = 8232 ∨
    c.toNat = 8233 ∨ c.toNat = 8239 ∨ c.toNat = 8287 ∨ c.toNat = 12288 ∨
    c.toNat = 65279)

/-- JS line terminators, the characters the regex `.` does not match:
newline, carriage return, line separator, paragraph separator. -/
def isLineTerm (c : Char) : Bool :=
  decide (c.toNat = 10 ∨ c.toNat = 13 ∨ c.toNat = 8232 ∨ c.toNat = 8233)

/-- JS `String.prototype.trim`: strip leading and trailing whitespace. -/
def jsTrim (s : List Char) : List Char :=
  ((s.dropWhile isJsWs).reverse.dropWhile isJsWs).reverse

/-- JS `markdownText.split('\n')`: the list of lines, where a trailing
newline yields a final empty line and the empty string yields one empty
line. -/
def splitLines : List Char → List (List Char)
  | [] => [[]]
  | c :: rest =>
    if c = '\n' then [] :: splitLines rest
    else
      match splitLines rest with
      | [] => [[c]]
      | l :: ls => (c :: l) :: ls

/-- Matching of the heading regex against one line: one to six leading
hash characters (seven or more leading hashes can never match, because the
group is followed by a mandatory whitespace character), at least one
whitespace character, then a non-empty capture of non-line-terminator
characters running to the end of the line.  When everything after the
hashes is whitespace, the lazy engine backtracks and captures just the last
character, provided it is not a line terminator.  Returns the heading level
and the captured group. -/
def headingMatch (line : List Char) : Option (Nat × List Char) :=
  let k := (line.takeWhile (· = '#')).length
  if 1 ≤ k ∧ k ≤ 6 then
    let rest := line.drop k
    let ws := rest.takeWhile isJsWs
    let tail := rest.dropWhile isJsWs
    if ws.isEmpty then none
    else if tail.isEmpty then
      match rest.getLast? with
      | some c => if 2 ≤ rest.length ∧ ¬ isLineTerm c then some (k, [c]) else none
      | none => none
    else if tail.any isLineTerm then none
    else some (k, tail)
  else none

/-- The kind tag of a decoded markdown block. -/
inductive MdType where
  | heading
  | paragraph
deriving DecidableEq

/-- A decoded markdown block `{type, level?, text, namedStyleType}` as pushed
by `parseMarkdownContent` (the stored text always ends in a newline). -/
structure MdElement where
  type : MdType
  level : Option Nat := none
  text : List Char
  namedStyleType : NamedStyle
deriving DecidableEq

/-- The named style string `HEADING_k` for a matched heading level. -/
def headingStyleOf : Nat → NamedStyle
  | 1 => .heading1
  | 2 => .heading2
  | 3 => .heading3
  | 4 => .heading4
  | 5 => .heading5
  | 6 => .heading6
  | _ => .other

/-- The loop body of `parseMarkdownContent`: a heading line is pushed as a
heading block with its capture trimmed; any other line is pushed as a
paragraph block when it has non-whitespace content or nothing has been
pushed yet (so the first line always produces a block). -/
def processLine (elements : List MdElement) (line : List Char) : List MdElement :=
  match headingMatch line with
  | some (level, text) =>
    elements ++ [{ type := .heading, level := some level, text := jsTrim text ++ ['\n'],
                   namedStyleType := headingStyleOf level }]
  | none =>
    if ¬(jsTrim line).isEmpty ∨ elements.isEmpty then
      elements ++ [{ type := .paragraph, text := line ++ ['\n'],
                     namedStyleType := .normalText }]
    else elements

/-- Translation of `parseMarkdownContent` (src/unnamed/part_002): split the
markdown on newlines and process each line in order. -/
def parseMarkdownContent (markdownText : List Char) : List MdElement :=
  (splitLines markdownText).foldl processLine []

theorem processLine_length_le (elements : List MdElement) (line : List Char) :
    elements.length ≤ (processLine elements line).length := by
  rw [processLine]
  split
  · simp
  · split
    · simp
    · exact le_refl _

theorem foldl_processLine_length : ∀ (lines : List (List Char)) (acc : List MdElement),
    acc.length ≤ (lines.foldl processLine acc).length := by
  intro lines
  induction lines with
  | nil => intro acc; simp
  | cons l ls ih => intro acc; exact le_trans (processLine_length_le acc l) (ih _)

theorem processLine_nil_length (line : List Char) : 1 ≤ (processLine [] line).length := by
  rw [processLine]
  split
  · simp
  · rw [if_pos (Or.inr (by simp))]
    simp

theorem splitLines_ne_nil (s : List Char) : splitLines s ≠ [] := by
  cases s with
  | nil => simp [splitLines]
  | cons c rest =>
    rw [splitLines]
    split
    · simp
    · split <;> simp

/-- Claim C1, amended: the Markdown decoder is total - every input string
(including the empty string and strings of only blank lines) parses to at
least one block; a line matching the heading pattern becomes a heading
block (not a paragraph block), every other non-empty line becomes a
paragraph block, and the first line becomes a block unconditionally, so
the decoder never fails and never returns zero blocks. -/
theorem parseMarkdownContent_total (s : List Char) :
    1 ≤ (parseMarkdownContent s).length := by
  rw [parseMarkdownContent]
  cases hs : splitLines s with
  | nil => exact absurd hs (splitLines_ne_nil s)
  | cons l ls =>
    rw [List.foldl_cons]
    calc 1 ≤ (processLine [] l).length := processLine_nil_length l
    _ ≤ _ := foldl_processLine_length ls _

/-- Claim C1 as stated is refuted on the input "# Hi": parsing produces one
heading block and no paragraph block at all. -/
theorem parseMarkdownContent_paragraph_counterexample :
    parseMarkdownContent "# Hi".data =
      [{ type := .heading, level := some 1, text := "Hi\n".data,
         namedStyleType := .heading1 }] ∧
    ¬ ∃ e ∈ parseMarkdownContent "# Hi".data, e.type = MdType.paragraph := by
  decide

/-! ## Heading indexer and section-relative tools (src/unnamed/part_002) -/

/-- A heading record as built by `findHeadingsWithPositions`: the source
stores the paragraph's `headingId` in the `level` field, the trimmed run
text, and the offsets of the heading's run text. -/
structure HeadingRecord where
  level : List Char
  text : List Char
  startIndex : Nat
  endIndex : Nat
deriving DecidableEq

/-- The heading test of `findHeadingsWithPositions`: the paragraph has a
style object and a truthy (present, non-empty) `headingId`. -/
def isHeadingStyle : Option ParagraphStyle → Bool
  | none => false
  | some ps =>
    match ps.headingId with
    | none => false
    | some h => !h.isEmpty

/-- The `headingId` read in the heading branch (always present there). -/
def headingIdOf : Option ParagraphStyle → List Char
  | none => []
  | some ps => ps.headingId.getD []

/-- The walk of `findHeadingsWithPositions`, threading `currentIndex`
(initially 1): a heading paragraph emits a record spanning its run text and
advances the index by its length; a plain paragraph advances the index by
its run length; a table advances it by the text length of all its cells;
any other element leaves the index unchanged. -/
def findHeadingsAux : List StructuralElement → Nat → List HeadingRecord
  | [], _ => []
  | e :: rest, currentIndex =>
    match e with
    | .paragraph pes ps =>
      if isHeadingStyle ps then
        let len := (runsText pes).length
        { level := headingIdOf ps, text := jsTrim (runsText pes),
          startIndex := currentIndex, endIndex := currentIndex + len } ::
          findHeadingsAux rest (currentIndex + len)
      else findHeadingsAux rest (currentIndex + (runsText pes).length)
    | .table rows => findHeadingsAux rest (currentIndex + (extractTextFromRows rows).length)
    | .tableOfContents => findHeadingsAux rest currentIndex
    | .other => findHeadingsAux rest currentIndex

/-- Translation of `findHeadingsWithPositions` (src/unnamed/part_002). -/
def findHeadingsWithPositions (content : List StructuralElement) : List HeadingRecord :=
  findHeadingsAux content 1

/-- JS `String.prototype.toLowerCase`, character by character (accurate on
the ASCII range used for heading names). -/
def toLowerCase (s : List Char) : List Char :=
  s.map Char.toLower

/-- The heading lookup predicate shared by the section tools:
`h.text.toLowerCase().trim() === query.toLowerCase().trim()`. -/
def matchesHeading (query : List Char) (h : HeadingRecord) : Bool :=
  decide (jsTrim (toLowerCase h.text) = jsTrim (toLowerCase query))

/-- The end-of-document insertion index used by `append-to-section` when no
heading follows: `Math.max(1, textContent.length)`. -/
def documentEnd (content : List StructuralElement) : Nat :=
  max 1 (extractTextFromContent content).length

/-- The insertion-index computation of the `append-to-section` tool
(src/unnamed/part_002): resolve the named heading (first match,
case-insensitively on trimmed text); if it resolves, the insertion index is
the start of the first heading beginning after the target's end, or the
end-of-document index when there is none.  `none` models the thrown
"Heading not found" error. -/
def appendToSectionIndex (content : List StructuralElement) (sectionHeading : List Char) :
    Option Nat :=
  let headings := findHeadingsWithPositions content
  match headings.find? (matchesHeading sectionHeading) with
  | none => none
  | some targetHeading =>
    match headings.find? (fun h => decide (targetHeading.endIndex < h.startIndex)) with
    | some nextHeading => some nextHeading.startIndex
    | none => some (documentEnd content)

/-- A primitive edit request sent to the remote batch-update call. -/
inductive Request where
  | insertText (index : Nat) (text : List Char)
  | updateTextStyle (startIndex endIndex : Nat)
  | updateParagraphStyle (startIndex endIndex : Nat) (style : NamedStyle)
  | deleteContentRange (startIndex endIndex : Nat)
deriving DecidableEq

/-- The plan of the `insert-content-after-heading` tool
(src/unnamed/part_002), modelled with the optional `textStyle` argument
absent: resolve the heading by the shared lookup; when it does not resolve,
the tool throws `Heading "..." not found` before any batch-update call
(modelled as `Except.error` with zero requests); otherwise it issues one
insert-text request at the heading's end index. -/
def insertAfterHeadingPlan (content : List StructuralElement)
    (headingText insertion : List Char) : Except (List Char) (List Request) :=
  let headings := findHeadingsWithPositions content
  match headings.find? (matchesHeading headingText) with
  | none => Except.error ("Heading \"".data ++ headingText ++ "\" not found".data)
  | some targetHeading => Except.ok [Request.insertText targetHeading.endIndex insertion]

/-- Decidable form of the monotonicity hypothesis for the heading walk: a
heading paragraph must carry at least one character of run text. -/
def headingLenOk : StructuralElement → Bool
  | .paragraph pes ps => !isHeadingStyle ps || decide (1 ≤ (runsText pes).length)
  | _ => true

/-- Invariant of the heading walk: when every heading paragraph has at
least one character of run text, the emitted records are in strictly
increasing startIndex order and all start at or after the walk's cursor. -/
theorem findHeadingsAux_chain :
    ∀ (content : List StructuralElement) (idx : Nat),
      (∀ e ∈ content, headingLenOk e) →
      List.Chain' (fun a b => a.startIndex < b.startIndex) (findHeadingsAux content idx) ∧
      ∀ r ∈ findHeadingsAux content idx, idx ≤ r.startIndex := by
  intro content
  induction content with
  | nil => intro idx h; simp [findHeadingsAux]
  | cons e rest ih =>
    intro idx h
    have hrest : ∀ x ∈ rest, headingLenOk x := fun x hx => h x (by simp [hx])
    match e with
    | .paragraph pes ps =>
      rw [findHeadingsAux]
      by_cases hh : isHeadingStyle ps
      · rw [if_pos hh]
        have hlen : 1 ≤ (runsText pes).length := by
          have h2 := h (.paragraph pes ps) (by simp)
          rw [headingLenOk, hh] at h2
          simpa using h2
        obtain ⟨hc, hb⟩ := ih (idx + (runsText pes).length) hrest
        constructor
        · rw [List.chain'_cons']
          refine ⟨?_, hc⟩
          intro y hy
          have h3 := hb y (List.mem_of_mem_head? hy)
          simp only []
          omega
        · intro r hr
          rcases List.mem_cons.mp hr with rfl | hr2
          · exact le_refl _
          · have := hb r hr2
            omega
      · rw [if_neg hh]
        obtain ⟨hc, hb⟩ := ih (idx + (runsText pes).length) hrest
        exact ⟨hc, fun r hr => by have := hb r hr; omega⟩
    | .table rows =>
      rw [findHeadingsAux]
      obtain ⟨hc, hb⟩ := ih (idx + (extractTextFromRows rows).length) hrest
      exact ⟨hc, fun r hr => by have := hb r hr; omega⟩
    | .tableOfContents =>
      rw [findHeadingsAux]
      exact ih idx hrest
    | .other =>
      rw [findHeadingsAux]
      exact ih idx hrest

/-- Claim C5, amended: for every content tree in which each heading
paragraph carries at least one character of run text, the heading indexer
returns heading records in document order with strictly increasing
startIndex (a heading paragraph with no run text advances the offset by
zero, so two adjacent empty headings repeat the same startIndex). -/
theorem findHeadings_strictly_increasing (content : List StructuralElement)
    (h : ∀ e ∈ content, headingLenOk e) :
    List.Chain' (fun a b => a.startIndex < b.startIndex)
      (findHeadingsWithPositions content) :=
  (findHeadingsAux_chain content 1 h).1

/-- Witness for `findHeadings_strictly_increasing` on a three-paragraph
document with two non-empty headings. -/
theorem findHeadings_strictly_increasing_witness :
    (∀ e ∈ [StructuralElement.paragraph [ParaElement.textRun "A".data]
        (some { headingId := some "h1".data }),
      StructuralElement.paragraph [ParaElement.textRun "x".data] none,
      StructuralElement.paragraph [ParaElement.textRun "B".data]
        (some { headingId := some "h2".data })], headingLenOk e) ∧
    List.Chain' (fun a b => a.startIndex < b.startIndex)
      (findHeadingsWithPositions
        [StructuralElement.paragraph [ParaElement.textRun "A".data]
          (some { headingId := some "h1".data }),
         StructuralElement.paragraph [ParaElement.textRun "x".data] none,
         StructuralElement.paragraph [ParaElement.textRun "B".data]
          (some { headingId := some "h2".data })]) :=
  ⟨by decide, findHeadings_strictly_increasing _ (by decide)⟩

/-- Claim C5 as stated is refuted on a tree of two heading paragraphs with
no text runs: both records get startIndex 1, so the order is not strictly
increasing. -/
theorem findHeadings_zero_length_counterexample :
    ¬ List.Chain' (fun a b => a.startIndex < b.startIndex)
      (findHeadingsWithPositions
        [StructuralElement.paragraph [] (some { headingId := some "h1".data }),
         StructuralElement.paragraph [] (some { headingId := some "h2".data })]) := by
  intro hch
  have heq : findHeadingsWithPositions
      [StructuralElement.paragraph [] (some { headingId := some "h1".data }),
       StructuralElement.paragraph [] (some { headingId := some "h2".data })] =
      [{ level := "h1".data, text := [], startIndex := 1, endIndex := 1 },
       { level := "h2".data, text := [], startIndex := 1, endIndex := 1 }] := by decide
  rw [heq] at hch
  have h1 := (List.chain'_cons.mp hch).1
  simp at h1

/-- Claim C6: when the named section heading resolves, append-to-section
computes the insertion index as the next heading's startIndex (the first
heading starting after the target's end), or the end-of-document index when
no heading follows - never the end of the named heading itself. -/
theorem appendToSection_section_end (content : List StructuralElement)
    (name : List Char) (target : HeadingRecord)
    (hfind : (findHeadingsWithPositions content).find? (matchesHeading name) = some target) :
    (∀ nxt, (findHeadingsWithPositions content).find?
        (fun h => decide (target.endIndex < h.startIndex)) = some nxt →
      appendToSectionIndex content name = some nxt.startIndex) ∧
    ((∀ h ∈ findHeadingsWithPositions content, h.startIndex ≤ target.endIndex) →
      appendToSectionIndex content name = some (documentEnd content)) := by
  constructor
  · intro nxt hn
    simp [appendToSectionIndex, hfind, hn]
  · intro hall
    have hnone : (findHeadingsWithPositions content).find?
        (fun h => decide (target.endIndex < h.startIndex)) = none := by
      rw [List.find?_eq_none]
      intro x hx
      have h2 := hall x hx
      simp only [decide_eq_true_eq]
      omega
    simp [appendToSectionIndex, hfind, hnone]

/-- Witness for `appendToSection_section_end`: with headings Intro, Body
and Conclusion, append-to-section "Body" inserts at 18, Conclusion's start
offset, and not at 15, the end of the "Body" heading itself. -/
theorem appendToSection_section_end_witness :
    ((findHeadingsWithPositions
        [StructuralElement.paragraph [ParaElement.textRun "Intro\n".data]
          (some { headingId := some "h1".data }),
         StructuralElement.paragraph [ParaElement.textRun "i1\n".data] none,
         StructuralElement.paragraph [ParaElement.textRun "Body\n".data]
          (some { headingId := some "h2".data }),
         StructuralElement.paragraph [ParaElement.textRun "b1\n".data] none,
         StructuralElement.paragraph [ParaElement.textRun "Conclusion\n".data]
          (some { headingId := some "h3".data }),
         StructuralElement.paragraph [ParaElement.textRun "c1\n".data] none]).find?
      (matchesHeading "Body".data) =
      some { level := "h2".data, text := "Body".data, startIndex := 10, endIndex := 15 }) ∧
    appendToSectionIndex
      [StructuralElement.paragraph [ParaElement.textRun "Intro\n".data]
        (some { headingId := some "h1".data }),
       StructuralElement.paragraph [ParaElement.textRun "i1\n".data] none,
       StructuralElement.paragraph [ParaElement.textRun "Body\n".data]
        (some { headingId := some "h2".data }),
       StructuralElement.paragraph [ParaElement.textRun "b1\n".data] none,
       StructuralElement.paragraph [ParaElement.textRun "Conclusion\n".data]
        (some { headingId := some "h3".data }),
       StructuralElement.paragraph [ParaElement.textRun "c1\n".data] none] "Body".data =
      some 18 ∧
    (18 : Nat) ≠ 15 :=
  ⟨by decide,
   (appendToSection_section_end _ "Body".data
      { level := "h2".data, text := "Body".data, startIndex := 10, endIndex := 15 }
      (by decide)).1
      { level := "h3".data, text := "Conclusion".data, startIndex := 18, endIndex := 29 }
      (by decide),
   by decide⟩

/-- Claim C7: when the named heading does not resolve in the document,
insert-after-heading reports the "Heading not found" error and issues zero
remote edit requests - it never defaults to a guessed target. -/
theorem insertAfterHeading_notFound (content : List StructuralElement)
    (name txt : List Char)
    (h : ∀ hd ∈ findHeadingsWithPositions content, matchesHeading name hd = false) :
    insertAfterHeadingPlan content name txt =
      Except.error ("Heading \"".data ++ name ++ "\" not found".data) := by
  have hnone : (findHeadingsWithPositions content).find? (matchesHeading name) = none :=
    List.find?_eq_none.mpr (fun x hx => by rw [h x hx]; simp)
  simp [insertAfterHeadingPlan, hnone]

/-- Witness for `insertAfterHeading_notFound` on a document whose only
heading is "Intro". -/
theorem insertAfterHeading_notFound_witness :
    (∀ hd ∈ findHeadingsWithPositions
        [StructuralElement.paragraph [ParaElement.textRun "Intro\n".data]
          (some { headingId := some "h1".data })],
      matchesHeading "Nonexistent".data hd = false) ∧
    insertAfterHeadingPlan
      [StructuralElement.paragraph [ParaElement.textRun "Intro\n".data]
        (some { headingId := some "h1".data })]
      "Nonexistent".data "x".data =
      Except.error ("Heading \"Nonexistent\" not found".data) :=
  ⟨by decide, insertAfterHeading_notFound _ _ _ (by decide)⟩

/-! ## Edit-planner index clamping (`update-doc-with-style` and
`insert-markdown-content`, src/unnamed/part_002) -/

/-- The conservative document length computed by both tools:
`baseIndex + Math.max(0, textContent.length - 1)` when the body has
content, else `baseIndex`. -/
def documentLengthOf (baseIndex : Int) (content : List StructuralElement) : Int :=
  if 0 < content.length then
    baseIndex + max 0 (((extractTextFromContent content).length : Int) - 1)
  else baseIndex

/-- The insertion-index computation shared by `update-doc-with-style` and
`insert-markdown-content`: `replaceAll` anchors at the base; otherwise a
truthy (non-zero) insertionPoint is clamped by
`Math.max(baseIndex, Math.min(insertionPoint, documentLength))`; a missing
or zero insertionPoint appends at the document length. -/
def computeInsertIndex (baseIndex documentLength : Int) (replaceAll : Bool)
    (insertionPoint : Option Int) : Int :=
  if replaceAll then baseIndex
  else
    match insertionPoint with
    | some p => if p ≠ 0 then max baseIndex (min p documentLength) else documentLength
    | none => documentLength

/-- Claim C8, amended: the edit planner never rejects an insertion point -
 the computed index is total.  A non-zero requested point is clamped into
[treeStartOffset, treeEndOffset]: beyond the tree's end it resolves to
exactly the end, a non-zero point below the start resolves to the start,
and an in-range point is used as is.  A requested point of 0, however, is
falsy in JS and is treated as absent: it resolves to the document end, not
the start. -/
theorem computeInsertIndex_clamps (content : List StructuralElement) (p : Int) :
    1 ≤ documentLengthOf 1 content ∧
    (documentLengthOf 1 content < p →
      computeInsertIndex 1 (documentLengthOf 1 content) false (some p) =
        documentLengthOf 1 content) ∧
    (p < 1 ∧ p ≠ 0 →
      computeInsertIndex 1 (documentLengthOf 1 content) false (some p) = 1) ∧
    (1 ≤ p ∧ p ≤ documentLengthOf 1 content →
      computeInsertIndex 1 (documentLengthOf 1 content) false (some p) = p) ∧
    computeInsertIndex 1 (documentLengthOf 1 content) false (some 0) =
      documentLengthOf 1 content ∧
    computeInsertIndex 1 (documentLengthOf 1 content) false none =
      documentLengthOf 1 content := by
  have hL : 1 ≤ documentLengthOf 1 content := by
    rw [documentLengthOf]
    split
    · have h0 : (0 : Int) ≤ max 0 (((extractTextFromContent content).length : Int) - 1) :=
        le_max_left 0 _
      omega
    · omega
  have hstep : ∀ q : Int, q ≠ 0 →
      computeInsertIndex 1 (documentLengthOf 1 content) false (some q) =
        max 1 (min q (documentLengthOf 1 content)) := by
    intro q hq
    simp [computeInsertIndex, hq]
  refine ⟨hL, ?_, ?_, ?_, ?_, ?_⟩
  · intro hp
    rw [hstep p (by omega)]
    omega
  · intro ⟨hp1, hp2⟩
    rw [hstep p hp2]
    omega
  · intro ⟨hp1, hp2⟩
    rw [hstep p (by omega)]
    omega
  · simp [computeInsertIndex]
  · simp [computeInsertIndex]

/-- Witness for `computeInsertIndex_clamps`: on a three-character document
an insertion point of 5 clamps down to the document end 3. -/
theorem computeInsertIndex_clamps_witness :
    documentLengthOf 1
      [StructuralElement.paragraph [ParaElement.textRun "abc".data] none] = 3 ∧
    (3 : Int) < 5 ∧
    computeInsertIndex 1 3 false (some 5) = 3 := by
  refine ⟨by decide, by decide, ?_⟩
  have h := (computeInsertIndex_clamps
    [StructuralElement.paragraph [ParaElement.textRun "abc".data] none] 5).2.1
  have hl : documentLengthOf 1
      [StructuralElement.paragraph [ParaElement.textRun "abc".data] none] = 3 := by decide
  rw [hl] at h
  exact h (by decide)

/-- Claim C8 as stated is refuted at insertion point 0 (one below the tree
start 1): `else if (insertionPoint)` is false for 0, so the tool appends at
the document end 3 instead of clamping up to the start 1. -/
theorem computeInsertIndex_zero_counterexample :
    documentLengthOf 1
      [StructuralElement.paragraph [ParaElement.textRun "abc".data] none] = 3 ∧
    computeInsertIndex 1 3 false (some 0) = 3 ∧ ((3 : Int) ≠ 1) := by
  exact ⟨by decide, by decide, by decide⟩

/-! ## Markdown encoder (`convertDocToMarkdown`, src/unnamed/part_001) -/

/-- The optional chain `paragraph.paragraphStyle?.namedStyleType`. -/
def namedStyleOf : Option ParagraphStyle → Option NamedStyle
  | none => none
  | some ps => ps.namedStyleType

/-- One switch arm of `convertDocToMarkdown`'s traversal: heading styles
emit hashes, a space, the trimmed text and a blank line; other paragraphs
emit the trimmed text and a blank line only when non-empty; tables and
tables of contents degrade to placeholder comments. -/
def elementMarkdown : StructuralElement → List Char
  | .paragraph pes ps =>
    match namedStyleOf ps with
    | some .heading1 => "# ".data ++ jsTrim (runsText pes) ++ "\n\n".data
    | some .heading2 => "## ".data ++ jsTrim (runsText pes) ++ "\n\n".data
    | some .heading3 => "### ".data ++ jsTrim (runsText pes) ++ "\n\n".data
    | some .heading4 => "#### ".data ++ jsTrim (runsText pes) ++ "\n\n".data
    | some .heading5 => "##### ".data ++ jsTrim (runsText pes) ++ "\n\n".data
    | some .heading6 => "###### ".data ++ jsTrim (runsText pes) ++ "\n\n".data
    | _ =>
      if (jsTrim (runsText pes)).isEmpty then []
      else jsTrim (runsText pes) ++ "\n\n".data
  | .table _ => "<!-- Table content -->\n\n".data
  | .tableOfContents => "<!-- Table of Contents -->\n\n".data
  | .other => []

/-- The document traversal of `convertDocToMarkdown`. -/
def traverseDocContent : List StructuralElement → List Char
  | [] => []
  | e :: rest => elementMarkdown e ++ traverseDocContent rest

/-- The post-pass `replace(/\n{3,}/g, '\n\n')`: every maximal run of
three or more newlines collapses to exactly two.  The fuel only bounds the
iteration count; `s.length` steps always suffice because every step
consumes at least one character. -/
def collapseNewlinesGo : Nat → List Char → List Char
  | 0, s => s
  | _, [] => []
  | fuel + 1, c :: rest =>
    if c = '\n' then
      (if 3 ≤ 1 + (rest.takeWhile (· = '\n')).length then ['\n', '\n']
       else List.replicate (1 + (rest.takeWhile (· = '\n')).length) '\n') ++
        collapseNewlinesGo fuel (rest.dropWhile (· = '\n'))
    else c :: collapseNewlinesGo fuel rest

/-- Newline collapsing over the whole string. -/
def collapseNewlines (s : List Char) : List Char :=
  collapseNewlinesGo s.length s

/-- Translation of `convertDocToMarkdown` (src/unnamed/part_001) applied to
a body's content list: traverse, collapse newline runs, trim. -/
def convertDocToMarkdown (content : List StructuralElement) : List Char :=
  jsTrim (collapseNewlines (traverseDocContent content))

/-- The heading level of a named style, when it is a heading style. -/
def headingLevel : NamedStyle → Option Nat
  | .heading1 => some 1
  | .heading2 => some 2
  | .heading3 => some 3
  | .heading4 => some 4
  | .heading5 => some 5
  | .heading6 => some 6
  | _ => none


/-- Claim C9: every paragraph styled HEADING_1 .. HEADING_6 encodes to N
hash characters (N the heading level), a single space, the trimmed
paragraph text and a blank line; in particular a HEADING_2 paragraph with
text "Intro" encodes to the document "## Intro" (the trailing blank line
being removed by the final trim). -/
theorem convertDoc_heading_mapping (pes : List ParaElement) (ps : Option ParagraphStyle)
    (k : Nat) (hk : (namedStyleOf ps).bind headingLevel = some k) :
    elementMarkdown (.paragraph pes ps) =
      List.replicate k '#' ++ ' ' :: (jsTrim (runsText pes) ++ ['\n', '\n']) ∧
    convertDocToMarkdown
      [.paragraph [.textRun "Intro".data] (some { namedStyleType := some .heading2 })] =
      "## Intro".data := by
  refine ⟨?_, by decide⟩
  cases hs : namedStyleOf ps with
  | none => rw [hs] at hk; simp at hk
  | some st =>
    rw [hs] at hk
    cases st with
    | heading1 =>
      simp only [headingLevel, Option.some_bind, Option.some.injEq] at hk
      subst hk
      simp [elementMarkdown, hs, List.replicate,
        show ("# ".data : List Char) = ['#', ' '] from rfl,
        show ("\n\n".data : List Char) = ['\n', '\n'] from rfl]
    | heading2 =>
      simp only [headingLevel, Option.some_bind, Option.some.injEq] at hk
      subst hk
      simp [elementMarkdown, hs, List.replicate,
        show ("## ".data : List Char) = ['#', '#', ' '] from rfl,
        show ("\n\n".data : List Char) = ['\n', '\n'] from rfl]
    | heading3 =>
      simp only [headingLevel, Option.some_bind, Option.some.injEq] at hk
      subst hk
      simp [elementMarkdown, hs, List.replicate,
        show ("### ".data : List Char) = ['#', '#', '#', ' '] from rfl,
        show ("\n\n".data : List Char) = ['\n', '\n'] from rfl]
    | heading4 =>
      simp only [headingLevel, Option.some_bind, Option.some.injEq] at hk
      subst hk
      simp [elementMarkdown, hs, List.replicate,
        show ("#### ".data : List Char) = ['#', '#', '#', '#', ' '] from rfl,
        show ("\n\n".data : List Char) = ['\n', '\n'] from rfl]
    | heading5 =>
      simp only [headingLevel, Option.some_bind, Option.some.injEq] at hk
      subst hk
      simp [elementMarkdown, hs, List.replicate,
        show ("##### ".data : List Char) = ['#', '#', '#', '#', '#', ' '] from rfl,
        show ("\n\n".data : List Char) = ['\n', '\n'] from rfl]
    | heading6 =>
      simp only [headingLevel, Option.some_bind, Option.some.injEq] at hk
      subst hk
      simp [elementMarkdown, hs, List.replicate,
        show ("###### ".data : List Char) = ['#', '#', '#', '#', '#', '#', ' '] from rfl,
        show ("\n\n".data : List Char) = ['\n', '\n'] from rfl]
    | normalText => simp [headingLevel] at hk
    | other => simp [headingLevel] at hk

/-- Witness for `convertDoc_heading_mapping` at heading level 2. -/
theorem convertDoc_heading_mapping_witness :
    ((namedStyleOf (some { namedStyleType := some NamedStyle.heading2 })).bind
      headingLevel = some 2) ∧
    elementMarkdown (.paragraph [.textRun "Intro".data]
      (some { namedStyleType := some NamedStyle.heading2 })) =
      List.replicate 2 '#' ++ ' ' ::
        (jsTrim (runsText [.textRun "Intro".data]) ++ ['\n', '\n']) :=
  ⟨by decide,
   (convertDoc_heading_mapping [.textRun "Intro".data]
     (some { namedStyleType := some NamedStyle.heading2 }) 2 (by decide)).1⟩

end GDoc
